import Mathlib

set_option maxHeartbeats 2000000

/- Verification of the GIS_fork repository: a shallow embedding of the
   network-graph assembler (src/ICEgraph.py) and of the line-code matrix
   builder (src/libLineCode.py), with theorems settling the specification
   claims about them.

   Modelling conventions: Python floats are embedded as rationals; the
   coordinate tolerance test `abs(self - other) < 1e-3` of Vertex.__eq__
   is embedded as the equivalent squared comparison over the rationals
   (both sides are nonnegative, so squaring preserves the inequality);
   numpy complex numbers are pairs of rationals; Python dicts that are
   only written with `d[k] = v` and read back are association lists with
   in-place update, matching insertion-order semantics. -/

/-- A complex number with rational parts, modelling numpy complex entries. -/
structure Cplx where
  re : ℚ
  im : ℚ
deriving DecidableEq

/-- The kinds of point entity of ICEgraph.py: the Vertex base class and its
subclasses Bus, Node, Load (covering LVload/MVload, which add no behaviour)
and Transformer. -/
inductive VKind where
  | vertex
  | bus
  | node
  | load
  | transformer
deriving DecidableEq

/-- Point entity, from class Vertex of ICEgraph.py: planar coordinates and an
optional identifier.  The Python subclass tag is carried as `kind`. -/
structure Vertex where
  kind : VKind
  X1 : ℚ
  Y1 : ℚ
  ICEobjID : Option String
deriving DecidableEq

/-- The spatial tolerance of Vertex.__eq__ (ICEgraph.py line 66): 1e-3. -/
def tol : ℚ := 1 / 1000

/-- Vertex.__eq__ (ICEgraph.py lines 56-67): two vertices are equal when the
Euclidean distance of their coordinates is below `tol`, regardless of subclass
or identifier.  Embedded via the equivalent squared comparison. -/
def vertexEq (a b : Vertex) : Bool :=
  decide ((a.X1 - b.X1) ^ 2 + (a.Y1 - b.Y1) ^ 2 < tol ^ 2)

/-- A stored connector, from class Edge of ICEgraph.py after add_edge has
resolved `_from_vertex` and `_to_vertex`. -/
structure EdgeObj where
  fromV : Vertex
  toV : Vertex
  ICEobjID : Option String
deriving DecidableEq

/-- A connector candidate as passed to add_edge: endpoint coordinates
X1, Y1, X2, Y2 and the identifier. -/
structure EdgeIn where
  X1 : ℚ
  Y1 : ℚ
  X2 : ℚ
  Y2 : ℚ
  ICEobjID : Option String
deriving DecidableEq

/-- The graph state of class CKTgraph: the point collection `_vertices`, the
connector collection `_edges` and the side table `_odd_bucket`. -/
structure CKTgraph where
  vertices : List Vertex
  edges : List EdgeObj
  oddBucket : List (Option String × Vertex)
deriving DecidableEq

/-- Python dict assignment `d[k] = v` on an insertion-ordered dict,
modelled as in-place update of an association list. -/
def dset {κ α : Type} [DecidableEq κ] : List (κ × α) → κ → α → List (κ × α)
  | [], k, v => [(k, v)]
  | (k1, v1) :: t, k, v =>
    if k1 = k then (k, v) :: t else (k1, v1) :: dset t k v

/-- Python dict lookup `d[k]`, as an option. -/
def dget {κ α : Type} [DecidableEq κ] (m : List (κ × α)) (k : κ) : Option α :=
  (m.find? (fun p => decide (p.1 = k))).map (fun p => p.2)

/-- Python str.replace scanning: replace non-overlapping occurrences of
`pat` left to right; the fuel argument (instantiated with the input length)
only bounds the recursion. -/
def replaceFuel (pat rep : List Char) : ℕ → List Char → List Char
  | 0, l => l
  | _ + 1, [] => []
  | fuel + 1, c :: rest =>
    if pat ≠ [] ∧ pat.isPrefixOf (c :: rest) then
      rep ++ replaceFuel pat rep fuel (List.drop pat.length (c :: rest))
    else c :: replaceFuel pat rep fuel rest

/-- Python `s.replace(pat, rep)`. -/
def pyReplace (s pat rep : String) : String :=
  String.mk (replaceFuel pat.toList rep.toList s.toList.length s.toList)

/-- Python str.split scanning: cut at each non-overlapping occurrence of the
(nonempty) separator; the fuel argument bounds the recursion. -/
def splitFuel (sep : List Char) : ℕ → List Char → List Char → List (List Char)
  | _, [], cur => [cur.reverse]
  | 0, l, cur => [cur.reverse ++ l]
  | fuel + 1, c :: rest, cur =>
    if sep.isPrefixOf (c :: rest) then
      cur.reverse :: splitFuel sep fuel (List.drop sep.length (c :: rest)) []
    else splitFuel sep fuel rest (c :: cur)

/-- Python `s.split(sep)` for a nonempty separator. -/
def pySplit (s sep : String) : List String :=
  (splitFuel sep.toList s.toList.length s.toList []).map String.mk

/-- Python `list.remove(w)` on the vertex list: drop the first element that
compares equal (Vertex.__eq__, i.e. within tolerance) to `w`. -/
def eraseFirst (w : Vertex) : List Vertex → List Vertex
  | [] => []
  | u :: t => if vertexEq u w then t else u :: eraseFirst w t

/-- CKTgraph.add_vertex (ICEgraph.py lines 211-282).  `type(v) == Vertex` and
the isinstance tests on the flyweight (Bus, Node) and heavy (Transformer,
Load) bands become tests on `kind`; `v in self._vertices` and
`self._vertices[self._vertices.index(v)]` become `find?` with Vertex.__eq__;
`remove` is `eraseFirst`.  The Python method also returns `v`; only the state
is modelled. -/
def add_vertex (g : CKTgraph) (v : Vertex) : CKTgraph :=
  if v.kind = VKind.vertex ∨ v.kind = VKind.bus ∨ v.kind = VKind.node then
    match g.vertices.find? (fun u => vertexEq u v) with
    | some vold =>
      if vold.kind = VKind.transformer ∨ vold.kind = VKind.load ∨
          vold.kind = VKind.bus then g
      else if vold.kind = VKind.node then
        { g with vertices := eraseFirst vold g.vertices ++ [v] }
      else if vold.kind = VKind.vertex ∧ v.kind = VKind.bus then
        { g with vertices := eraseFirst vold g.vertices ++ [v] }
      else g
    | none => { g with vertices := g.vertices ++ [v] }
  else
    match g.vertices.find? (fun u => vertexEq u v) with
    | some vold =>
      if vold.kind = VKind.vertex ∨ vold.kind = VKind.bus ∨
          vold.kind = VKind.node then
        { g with vertices := eraseFirst vold g.vertices ++ [v] }
      else if v.kind = VKind.transformer then
        { g with vertices := eraseFirst vold g.vertices ++ [v] }
      else
        { g with oddBucket := dset g.oddBucket v.ICEobjID v }
    | none => { g with vertices := g.vertices ++ [v] }

/-- CKTgraph.add_edge (ICEgraph.py lines 284-320): synthesize Node endpoints
from the candidate's coordinates, attach each to an existing vertex within
tolerance when one exists (the second endpoint is resolved against the list
already updated by the first), append the Node otherwise, then store the
connector with the resolved endpoints. -/
def add_edge (g : CKTgraph) (c : EdgeIn) : CKTgraph × EdgeObj :=
  let fromN : Vertex := { kind := VKind.node, X1 := c.X1, Y1 := c.Y1, ICEobjID := none }
  let toN : Vertex := { kind := VKind.node, X1 := c.X2, Y1 := c.Y2, ICEobjID := none }
  let p1 :=
    match g.vertices.find? (fun u => vertexEq u fromN) with
    | some u => (u, g.vertices)
    | none => (fromN, g.vertices ++ [fromN])
  let p2 :=
    match p1.2.find? (fun u => vertexEq u toN) with
    | some u => (u, p1.2)
    | none => (toN, p1.2 ++ [toN])
  let e : EdgeObj := { fromV := p1.1, toV := p2.1, ICEobjID := c.ICEobjID }
  ({ g with vertices := p2.2, edges := g.edges ++ [e] }, e)

/-- `self._vertices.index(v)` in adjacency_matrix: index of the first vertex
comparing equal (within tolerance) to `v`; `findIdx` returns the list length
when there is none (Python would raise there). -/
def vindex (vs : List Vertex) (v : Vertex) : ℕ :=
  vs.findIdx (fun u => vertexEq u v)

/-- One numpy increment `Adj[i, j] += 1` on a matrix represented as a
function of its indices. -/
def bump (M : ℕ → ℕ → ℕ) (i j : ℕ) : ℕ → ℕ → ℕ :=
  fun a b => if a = i ∧ b = j then M a b + 1 else M a b

/-- The body of the edge loop of CKTgraph.adjacency_matrix
(ICEgraph.py lines 530-537): `Adj[i, j] += 1; Adj[j, i] += 1`. -/
def adjStep (vs : List Vertex) (M : ℕ → ℕ → ℕ) (e : EdgeObj) : ℕ → ℕ → ℕ :=
  bump (bump M (vindex vs e.fromV) (vindex vs e.toV))
    (vindex vs e.toV) (vindex vs e.fromV)

/-- The entries of the adjacency matrix: the zero matrix folded through the
edge loop. -/
def adjEntry (g : CKTgraph) : ℕ → ℕ → ℕ :=
  g.edges.foldl (adjStep g.vertices) (fun _ _ => 0)

/-- CKTgraph.adjacency_matrix (ICEgraph.py lines 516-540), materialized as an
n_V × n_V table of entries. -/
def adjacency_matrix (g : CKTgraph) : List (List ℕ) :=
  (List.range g.vertices.length).map
    (fun i => (List.range g.vertices.length).map (fun j => adjEntry g i j))

/-- The per-edge contribution to entry (a, b) of the adjacency matrix. -/
def contrib (vs : List Vertex) (e : EdgeObj) (a b : ℕ) : ℕ :=
  (if a = vindex vs e.fromV ∧ b = vindex vs e.toV then 1 else 0) +
    (if a = vindex vs e.toV ∧ b = vindex vs e.fromV then 1 else 0)

/-- The number of connector endpoints incident to the i-th point entity,
counting multiplicities (the degree notion of the specification, with
incidence read through the same first-match index as the code). -/
def incidentEndpoints (g : CKTgraph) (i : ℕ) : ℕ :=
  (g.edges.map (fun e =>
    (if vindex g.vertices e.fromV = i then 1 else 0) +
      (if vindex g.vertices e.toV = i then 1 else 0))).sum

/-- The override-precedence ranking of the specification:
Transformer > Load > Bus > generic Vertex > Node. -/
def rank : VKind → ℕ
  | VKind.node => 0
  | VKind.vertex => 1
  | VKind.bus => 2
  | VKind.load => 3
  | VKind.transformer => 4

/-- `objID, _ = name.split("__")` in CKTgraph.add_lines.ends: the identifier
prefix before the "__" separator (the source unpacking assumes exactly one
separator; names in scope contain one). -/
def objIdOf (name : String) : String :=
  (pySplit name "__").headD ""

/-- The index-collecting loop of CKTgraph.add_lines.ends (ICEgraph.py lines
419-435): walk the enumerated identifier list, opening a group at each new
prefix and closing the previous group with its last row index.  The final
group is never closed by the source loop. -/
def endsGo (lines : List (String × List ℕ)) (prevID : String) :
    List (ℕ × String) → List (String × List ℕ)
  | [] => lines
  | (n, name) :: rest =>
    let objID := objIdOf name
    if n = 0 then endsGo (dset lines objID [n]) objID rest
    else if prevID = objID then endsGo lines prevID rest
    else
      endsGo
        (dset (dset lines prevID ((dget lines prevID).getD [] ++ [n - 1]))
          objID [n]) objID rest

/-- CKTgraph.add_lines.ends (ICEgraph.py lines 416-447): group rows by
identifier prefix, then derive each group's length: `sum(lineslen[i:j+1])`
for a closed two-index group, the single row's length otherwise. -/
def ends (namesID : List String) (lineslen : List ℚ) :
    List (String × List ℕ) × List (String × ℚ) :=
  let lines := endsGo [] "" namesID.enum
  let linelen := lines.map (fun p =>
    (p.1,
      match p.2 with
      | [i, j] => ((lineslen.drop i).take (j + 1 - i)).sum
      | ij => lineslen.getD (ij.headD 0) 0))
  (lines, linelen)

/-- One electrical-measurement row of the line-code table, with the fields
read by LineCode.get_linecodes. -/
structure Record where
  LibraryType : String
  R_RR : ℚ
  R_RS : ℚ
  R_RT : ℚ
  R_SS : ℚ
  R_ST : ℚ
  R_TT : ℚ
  R_RN : ℚ
  R_SN : ℚ
  R_TN : ℚ
  R_NN : ℚ
  X_RR : ℚ
  X_RS : ℚ
  X_RT : ℚ
  X_SS : ℚ
  X_ST : ℚ
  X_TT : ℚ
  X_RN : ℚ
  X_SN : ℚ
  X_TN : ℚ
  X_NN : ℚ
  C_RR : ℚ
  C_RS : ℚ
  C_RT : ℚ
  C_SS : ℚ
  C_ST : ℚ
  C_TT : ℚ
  C_RN : ℚ
  C_SN : ℚ
  C_TN : ℚ
  C_NN : ℚ
  IrLimit1 : ℚ
deriving DecidableEq

/-- LineCode.set_LibraryType (libLineCode.py lines 22-34).  The source loop
reassigns `Libname = libname.replace(k, v)` from the unmodified parameter on
every iteration, so only the last replacement (":" to "_") survives; the fold
transcribes that by ignoring its accumulator. -/
def set_LibraryType (libname : String) : String :=
  [("SUB", "SUB_"), ("MT", "MT_"), ("BT", "BT_"), (":", "_")].foldl
    (fun _ kv => pyReplace libname kv.1 kv.2) libname

/-- `libnameMod = libname.split("_")` applied to the modified library type. -/
def tokensOf (r : Record) : List String :=
  pySplit (set_LibraryType r.LibraryType) "_"

/-- The phase-count assignment of LineCode.get_linecodes (libLineCode.py
lines 95-113): explicit phase-letter tokens first, then the count of exact
zeros among the three R-phase mutual-resistance measurements, with the
triplex ("3"-suffixed) special case; `none` when no branch assigns. -/
def nphasesOf (tokens : List String) (r_rr r_rs r_rt : ℚ) : Option ℕ :=
  if "ABC" ∈ tokens then some 3
  else if "AB" ∈ tokens ∨ "AC" ∈ tokens ∨ "BC" ∈ tokens then some 2
  else if "A" ∈ tokens ∨ "B" ∈ tokens ∨ "C" ∈ tokens then some 1
  else
    let Ltype := tokens.getLastD ""
    let zeros_count := [r_rr, r_rs, r_rt].count 0
    if zeros_count = 1 ∧ Ltype = "3" then some 3
    else if zeros_count = 1 then some 2
    else if zeros_count = 2 then some 1
    else if zeros_count = 0 then some 3
    else none

/-- The phase count of a record. -/
def phaseOf (r : Record) : Option ℕ :=
  nphasesOf (tokensOf r) r.R_RR r.R_RS r.R_RT

/-- The 4×4 Carson impedance matrix of LineCode.get_linecodes (libLineCode.py
lines 116-139 and 165): entries accumulate `R + 1j*X` per measured pair,
mirrored across the diagonal; the source line `Zcarson[3,3] += line["C_NN"]`
(under the `# Cnn` comment) additionally adds the neutral-neutral capacitance
into the real part of the [3][3] impedance entry. -/
def Zcarson (l : Record) : List (List Cplx) :=
  [[⟨l.R_RR, l.X_RR⟩, ⟨l.R_RS, l.X_RS⟩, ⟨l.R_RT, l.X_RT⟩, ⟨l.R_RN, l.X_RN⟩],
   [⟨l.R_RS, l.X_RS⟩, ⟨l.R_SS, l.X_SS⟩, ⟨l.R_ST, l.X_ST⟩, ⟨l.R_SN, l.X_SN⟩],
   [⟨l.R_RT, l.X_RT⟩, ⟨l.R_ST, l.X_ST⟩, ⟨l.R_TT, l.X_TT⟩, ⟨l.R_TN, l.X_TN⟩],
   [⟨l.R_RN, l.X_RN⟩, ⟨l.R_SN, l.X_SN⟩, ⟨l.R_TN, l.X_TN⟩,
    ⟨l.R_NN + l.C_NN, l.X_NN⟩]]

/-- The 4×4 capacitance matrix of LineCode.get_linecodes (libLineCode.py
lines 141-162): complex dtype with zero imaginary parts; the [3][3] entry is
never written (the `C_NN` increment of the source targets Zcarson). -/
def Cmatrix (l : Record) : List (List Cplx) :=
  [[⟨l.C_RR, 0⟩, ⟨l.C_RS, 0⟩, ⟨l.C_RT, 0⟩, ⟨l.C_RN, 0⟩],
   [⟨l.C_RS, 0⟩, ⟨l.C_SS, 0⟩, ⟨l.C_ST, 0⟩, ⟨l.C_SN, 0⟩],
   [⟨l.C_RT, 0⟩, ⟨l.C_ST, 0⟩, ⟨l.C_TT, 0⟩, ⟨l.C_TN, 0⟩],
   [⟨l.C_RN, 0⟩, ⟨l.C_SN, 0⟩, ⟨l.C_TN, 0⟩, ⟨0, 0⟩]]

/-- `all(element == 0 for element in row)`. -/
def allZero (row : List Cplx) : Bool :=
  row.all (fun c => decide (c = ⟨0, 0⟩))

/-- The zero-row index collection of LineCode.get_linecodes (libLineCode.py
lines 167-177). -/
def zeroRows (M : List (List Cplx)) : List ℕ :=
  (M.enum.filter (fun p => allZero p.2)).map (fun p => p.1)

/-- `np.delete(l, idxs, axis=0)`: drop the elements whose index is listed. -/
def deleteIdxs {α : Type} (idxs : List ℕ) (l : List α) : List α :=
  (l.enum.filter (fun p => ¬ idxs.contains p.1)).map (fun p => p.2)

/-- The row-and-column reduction of LineCode.get_linecodes (libLineCode.py
lines 179-183): delete the all-zero rows, then the columns of the same
indices. -/
def reduceM (M : List (List Cplx)) : List (List Cplx) :=
  let idxs := zeroRows M
  (deleteIdxs idxs M).map (fun row => deleteIdxs idxs row)

/-- `str(list(np.real(row))).strip("]").strip("[").replace(",", "")`: the
real parts of a row, space separated.  The digit rendering of toString
stands in for Python float formatting; no claim depends on it. -/
def fmtRow (row : List Cplx) : String :=
  String.intercalate " " (row.map (fun c => toString c.re))

/-- The rmatrix row-joining loop (libLineCode.py lines 191-202). -/
def rowsLinecodeR (rows : List String) : String :=
  rows.foldl (fun acc row =>
    acc ++ (
      if rows.length = 1 then "[ " ++ row ++ " ]"
      else if row = rows.headD "" then "[ " ++ row ++ " "
      else if row = rows.getLastD "" then "| " ++ row ++ " ]"
      else if row = rows.dropLast.getLastD "" then "| " ++ row ++ " |"
      else "| " ++ row ++ " |")) ""

/-- The xmatrix row-joining loop (libLineCode.py lines 214-223): as the
rmatrix loop but without the second-to-last branch. -/
def rowsLinecodeX (rows : List String) : String :=
  rows.foldl (fun acc row =>
    acc ++ (
      if rows.length = 1 then "[ " ++ row ++ " ]"
      else if row = rows.headD "" then "[ " ++ row ++ " "
      else if row = rows.getLastD "" then "| " ++ row ++ " ]"
      else "| " ++ row ++ " |")) ""

/-- The cmatrix row-joining loop (libLineCode.py lines 236-247); its
second-to-last test reads clean_rows_R of the impedance matrix, transcribed
by passing that list alongside. -/
def rowsLinecodeC (rowsC rowsR : List String) : String :=
  rowsC.foldl (fun acc row =>
    acc ++ (
      if rowsC.length = 1 then "[ " ++ row ++ " ]"
      else if row = rowsC.headD "" then "[ " ++ row ++ " "
      else if row = rowsC.getLastD "" then "| " ++ row ++ " ]"
      else if row = rowsR.dropLast.getLastD "" then "| " ++ row ++ " |"
      else "| " ++ row ++ " |")) ""

/-- The serialization of one line-code block (libLineCode.py lines 185-256)
for a record whose nphases variable holds `n`: header plus rmatrix line,
xmatrix line (rebuilt from np.real of the reduced impedance matrix, exactly
as the rmatrix line is), then the cmatrix block when the reduced capacitance
matrix has rows, and the normamps line. -/
def emitLinecode (r : Record) (n : ℕ) : String :=
  let Zred := reduceM (Zcarson r)
  let Cred := reduceM (Cmatrix r)
  let cleanR := Zred.map fmtRow
  let cleanX := Zred.map fmtRow
  let cleanC := Cred.map fmtRow
  let rmat := "New Linecode." ++ pyReplace r.LibraryType " " "" ++ " nphases=" ++
    toString n ++ " units=km\n~ rmatrix = " ++ rowsLinecodeR cleanR ++ "  \n"
  let xmat := "~ xmatrix = " ++ rowsLinecodeX cleanX ++ "  \n"
  let cmat :=
    if cleanC.length ≠ 0 then
      "~ cmatrix = " ++ rowsLinecodeC cleanC cleanR ++ "\n~ normamps=" ++
        toString r.IrLimit1 ++ " \n"
    else "~ normamps=" ++ toString r.IrLimit1 ++ " \n"
  rmat ++ xmat ++ cmat ++ "\n"

/-- One iteration of the record loop of LineCode.get_linecodes: records that
are not of a BT or MT library type are skipped entirely; for the others the
nphases variable is reassigned when a phase branch matches and otherwise
keeps its previous value, and serializing the block dereferences it — an
unassigned variable there is Python's NameError, modelled as the error
outcome. -/
def lcStep (st : Option ℕ) (r : Record) : Except Unit (Option ℕ × Option String) :=
  if "BT" ∈ tokensOf r ∨ "MT" ∈ tokensOf r then
    match (match phaseOf r with
           | some n => some n
           | none => st) with
    | some n => Except.ok (some n, some (emitLinecode r n))
    | none => Except.error ()
  else Except.ok (st, none)

/-- The record loop of LineCode.get_linecodes, threading the nphases
variable across iterations and collecting the emitted blocks. -/
def lcRun : Option ℕ → List Record → Except Unit (List String)
  | _, [] => Except.ok []
  | st, r :: rs =>
    match lcStep st r with
    | Except.error e => Except.error e
    | Except.ok (st1, none) => lcRun st1 rs
    | Except.ok (st1, some s) => (lcRun st1 rs).map (fun tail => s :: tail)

/-- LineCode.get_linecodes (libLineCode.py lines 36-261) over a list of
records, starting with the nphases variable unassigned. -/
def get_linecodes (rs : List Record) : Except Unit (List String) :=
  lcRun none rs

/-- Nested entry lookup in a list-of-lists matrix. -/
def getE (M : List (List Cplx)) (i j : ℕ) : Option Cplx :=
  (M.get? i).bind (fun row => row.get? j)

/-- Index correction after one dropped row: entries at or past the dropped
index shift up by one. -/
def skipIdx (k i : ℕ) : ℕ :=
  if i < k then i else i + 1

/- Concrete records used as inputs in the theorems below. -/

/-- A record of a BT library type with every measurement zero. -/
def baseRec : Record :=
  { LibraryType := "BT_X_9", R_RR := 0, R_RS := 0, R_RT := 0, R_SS := 0,
    R_ST := 0, R_TT := 0, R_RN := 0, R_SN := 0, R_TN := 0, R_NN := 0,
    X_RR := 0, X_RS := 0, X_RT := 0, X_SS := 0, X_ST := 0, X_TT := 0,
    X_RN := 0, X_SN := 0, X_TN := 0, X_NN := 0, C_RR := 0, C_RS := 0,
    C_RT := 0, C_SS := 0, C_ST := 0, C_TT := 0, C_RN := 0, C_SN := 0,
    C_TN := 0, C_NN := 0, IrLimit1 := 0 }

/-- A record with nonzero neutral-neutral measurements R_NN = 2, X_NN = 3
and capacitance C_NN = 5. -/
def c1rec : Record :=
  { baseRec with R_NN := 2, X_NN := 3, C_NN := 5 }

/-- The rmatrix and xmatrix joining loops agree on every row list: the extra
second-to-last branch of the rmatrix loop emits the same text as its default
branch. -/
lemma rowsLinecodeR_eq_X : rowsLinecodeR = rowsLinecodeX := by
  funext rows
  unfold rowsLinecodeR rowsLinecodeX
  simp only [ite_self]

/-- C1: the assembled matrices mirror resistance + i·reactance and the
capacitance measurements — except at the neutral-neutral position, where the
source adds C_NN into the impedance entry (Zcarson[3][3] carries
R_NN + C_NN + i·X_NN) and leaves the capacitance [3][3] entry at zero, so
the claimed Z_NN = R_NN + i·X_NN and C_NN placement fail whenever C_NN ≠ 0;
evaluated generally and at the concrete record c1rec. -/
theorem neutral_entries_bug :
    (∀ r : Record,
      getE (Zcarson r) 3 3 = some ⟨r.R_NN + r.C_NN, r.X_NN⟩ ∧
        getE (Cmatrix r) 3 3 = some ⟨0, 0⟩) ∧
      getE (Zcarson c1rec) 3 3 = some ⟨7, 3⟩ ∧
      getE (Cmatrix c1rec) 3 3 = some ⟨0, 0⟩ ∧
      ((7 : ℚ) ≠ 2 ∧ (0 : ℚ) ≠ 5) := by
  refine ⟨fun r => ⟨rfl, rfl⟩, ?_, rfl, by norm_num⟩
  have h : getE (Zcarson c1rec) 3 3 =
      some ⟨c1rec.R_NN + c1rec.C_NN, c1rec.X_NN⟩ := rfl
  rw [h]
  norm_num [c1rec, baseRec]

/-- C6: the ends helper of add_lines never closes its final identifier
group, so the trailing polyline ["a__1", "a__2"] with segment lengths
[3, 4] is stored with length 3 (its first segment) instead of the claimed
sum 7; a group closed by a following identifier ("b__1") does get the sum. -/
theorem ends_last_group_bug :
    dget (ends ["a__1", "a__2"] [3, 4]).2 "a" = some 3 ∧
      ((3 : ℚ) ≠ 3 + 4) ∧
      dget (ends ["a__1", "a__2", "b__1"] [3, 4, 5]).2 "a" = some 7 := by
  refine ⟨rfl, by norm_num, ?_⟩
  have h : dget (ends ["a__1", "a__2", "b__1"] [3, 4, 5]).2 "a" =
      some ([(3 : ℚ), 4].sum) := rfl
  rw [h]
  norm_num

/-- C10: the serialized xmatrix line of every record carries exactly the
numeric content of the rmatrix line — both joining loops run over the same
np.real projection of the reduced impedance matrix, and the reactances are
never emitted. -/
theorem xmatrix_values_eq_rmatrix (r : Record) :
    rowsLinecodeX ((reduceM (Zcarson r)).map fmtRow) =
      rowsLinecodeR ((reduceM (Zcarson r)).map fmtRow) := by
  rw [rowsLinecodeR_eq_X]

/-- C8 counterexample: a first record of BT type with no phase-letter token
and all three R-phase mutual resistances zero makes the builder raise (the
nphases variable is dereferenced unassigned), contradicting the claim that
no unmatched case raises. -/
theorem unmatched_first_record_raises :
    get_linecodes [baseRec] = Except.error () := rfl

/-- C8 amended: an unmatched phase case leaves the nphases variable at its
previous value, so a later record silently emits the previous record's phase
count, while a first record with no previous value raises. -/
theorem unmatched_phase_uses_stale_value (r : Record) (n : ℕ)
    (h1 : "BT" ∈ tokensOf r ∨ "MT" ∈ tokensOf r) (h2 : phaseOf r = none) :
    lcStep (some n) r = Except.ok (some n, some (emitLinecode r n)) ∧
      lcStep none r = Except.error () := by
  unfold lcStep
  rw [h2]
  simp [h1]

/-- Witness for the C8 amended theorem at the concrete record baseRec. -/
theorem unmatched_phase_uses_stale_value_witness :
    ("BT" ∈ tokensOf baseRec ∨ "MT" ∈ tokensOf baseRec) ∧
      phaseOf baseRec = none ∧
      (lcStep (some 3) baseRec = Except.ok (some 3, some (emitLinecode baseRec 3)) ∧
        lcStep none baseRec = Except.error ()) :=
  ⟨by decide, by decide,
    unmatched_phase_uses_stale_value baseRec 3 (by decide) (by decide)⟩

/-- A record whose library name carries the explicit three-phase token. -/
def c3rec : Record :=
  { baseRec with LibraryType := "BT:ABC" }

/-- C3: for BT/MT records the phase count follows the library-name tokens
when a phase-letter token is present (ABC to 3, AB/AC/BC to 2, A/B/C to 1),
and otherwise the count of exact zeros among the three R-phase mutual
resistances (0 zeros to 3 phases, 1 zero to 2 phases or 3 for the "3"
triplex sub-type, 2 zeros to 1 phase). -/
theorem nphases_assignment (r : Record)
    (h : "BT" ∈ tokensOf r ∨ "MT" ∈ tokensOf r) :
    ("ABC" ∈ tokensOf r → phaseOf r = some 3) ∧
      ("ABC" ∉ tokensOf r →
        ("AB" ∈ tokensOf r ∨ "AC" ∈ tokensOf r ∨ "BC" ∈ tokensOf r) →
        phaseOf r = some 2) ∧
      ("ABC" ∉ tokensOf r →
        ¬ ("AB" ∈ tokensOf r ∨ "AC" ∈ tokensOf r ∨ "BC" ∈ tokensOf r) →
        ("A" ∈ tokensOf r ∨ "B" ∈ tokensOf r ∨ "C" ∈ tokensOf r) →
        phaseOf r = some 1) ∧
      ("ABC" ∉ tokensOf r →
        ¬ ("AB" ∈ tokensOf r ∨ "AC" ∈ tokensOf r ∨ "BC" ∈ tokensOf r) →
        ¬ ("A" ∈ tokensOf r ∨ "B" ∈ tokensOf r ∨ "C" ∈ tokensOf r) →
        ([r.R_RR, r.R_RS, r.R_RT].count 0 = 0 → phaseOf r = some 3) ∧
          ([r.R_RR, r.R_RS, r.R_RT].count 0 = 1 →
            (tokensOf r).getLastD "" = "3" → phaseOf r = some 3) ∧
          ([r.R_RR, r.R_RS, r.R_RT].count 0 = 1 →
            (tokensOf r).getLastD "" ≠ "3" → phaseOf r = some 2) ∧
          ([r.R_RR, r.R_RS, r.R_RT].count 0 = 2 → phaseOf r = some 1)) := by
  refine ⟨?_, ?_, ?_, ?_⟩
  · intro h1
    simp [phaseOf, nphasesOf, h1]
  · intro h1 h2
    simp [phaseOf, nphasesOf, h1, h2]
  · intro h1 h2 h3
    simp [phaseOf, nphasesOf, h1, h2, h3]
  · intro h1 h2 h3
    refine ⟨?_, ?_, ?_, ?_⟩
    · intro hc
      simp [phaseOf, nphasesOf, h1, h2, h3, hc]
    · intro hc ht
      rw [List.getLastD_eq_getLast?] at ht
      simp [phaseOf, nphasesOf, h1, h2, h3, hc, ht]
    · intro hc ht
      rw [List.getLastD_eq_getLast?] at ht
      simp [phaseOf, nphasesOf, h1, h2, h3, hc, ht]
    · intro hc
      simp [phaseOf, nphasesOf, h1, h2, h3, hc]

/-- Witness for the C3 theorem at a record whose library name holds the ABC
token. -/
theorem nphases_assignment_witness :
    ("BT" ∈ tokensOf c3rec ∨ "MT" ∈ tokensOf c3rec) ∧
      "ABC" ∈ tokensOf c3rec ∧ phaseOf c3rec = some 3 :=
  ⟨by decide, by decide, (nphases_assignment c3rec (by decide)).1 (by decide)⟩

/-- The zero-row indices of a four-row matrix, by cases on each row. -/
lemma zeroRows_four (r0 r1 r2 r3 : List Cplx) :
    zeroRows [r0, r1, r2, r3] =
      (if allZero r0 then [(0 : ℕ)] else []) ++
        (if allZero r1 then [1] else []) ++
        (if allZero r2 then [2] else []) ++
        (if allZero r3 then [3] else []) := by
  cases h0 : allZero r0 <;> cases h1 : allZero r1 <;> cases h2 : allZero r2 <;>
    cases h3 : allZero r3 <;>
    simp [zeroRows, List.enum, List.enumFrom, h0, h1, h2, h3]

/-- Row reduction of a four-row matrix always removes exactly the all-zero
rows: the reduced row count plus the zero-row count is four. -/
lemma reduce_len_four (r0 r1 r2 r3 : List Cplx) :
    (reduceM [r0, r1, r2, r3]).length + (zeroRows [r0, r1, r2, r3]).length = 4 := by
  cases h0 : allZero r0 <;> cases h1 : allZero r1 <;> cases h2 : allZero r2 <;>
    cases h3 : allZero r3 <;>
    simp [reduceM, zeroRows, deleteIdxs, List.enum, List.enumFrom, h0, h1, h2, h3]

/-- A record whose S-phase measurements are all zero and whose other phases
carry nonzero values, so exactly row 1 of the impedance matrix is zero. -/
def w7rec : Record :=
  { baseRec with
    R_RR := 1
    X_RR := 1
    R_RT := 2
    X_RT := 2
    R_TT := 1
    X_TT := 1
    R_RN := 4
    X_RN := 4
    R_TN := 3
    X_TN := 3
    R_NN := 1
    X_NN := 1 }

/-- C7: when exactly one row of the 4×4 impedance matrix is all-zero, the
reduced impedance matrix is 3×3 and every entry outside the dropped row and
column is unchanged (shifted past the dropped index); the capacitance matrix
is reduced by its own zero pattern, dropping exactly its own all-zero rows,
so the two reduced sizes are independent. -/
theorem reduction_one_zero_row (r : Record) (k : ℕ)
    (hz : zeroRows (Zcarson r) = [k]) :
    (reduceM (Zcarson r)).length = 3 ∧
      (∀ row ∈ reduceM (Zcarson r), row.length = 3) ∧
      (∀ i j : ℕ, i < 3 → j < 3 →
        getE (reduceM (Zcarson r)) i j =
          getE (Zcarson r) (skipIdx k i) (skipIdx k j)) ∧
      (reduceM (Cmatrix r)).length + (zeroRows (Cmatrix r)).length = 4 := by
  have hC : (reduceM (Cmatrix r)).length + (zeroRows (Cmatrix r)).length = 4 := by
    unfold Cmatrix
    exact reduce_len_four _ _ _ _
  unfold Zcarson at hz ⊢
  set L0 : List Cplx :=
    [⟨r.R_RR, r.X_RR⟩, ⟨r.R_RS, r.X_RS⟩, ⟨r.R_RT, r.X_RT⟩, ⟨r.R_RN, r.X_RN⟩]
    with hL0
  set L1 : List Cplx :=
    [⟨r.R_RS, r.X_RS⟩, ⟨r.R_SS, r.X_SS⟩, ⟨r.R_ST, r.X_ST⟩, ⟨r.R_SN, r.X_SN⟩]
    with hL1
  set L2 : List Cplx :=
    [⟨r.R_RT, r.X_RT⟩, ⟨r.R_ST, r.X_ST⟩, ⟨r.R_TT, r.X_TT⟩, ⟨r.R_TN, r.X_TN⟩]
    with hL2
  set L3 : List Cplx :=
    [⟨r.R_RN, r.X_RN⟩, ⟨r.R_SN, r.X_SN⟩, ⟨r.R_TN, r.X_TN⟩,
      ⟨r.R_NN + r.C_NN, r.X_NN⟩] with hL3
  have hz0 := hz
  rw [zeroRows_four] at hz
  cases h0 : allZero L0 <;> cases h1 : allZero L1 <;> cases h2 : allZero L2 <;>
    cases h3 : allZero L3 <;>
    simp [h0, h1, h2, h3] at hz
  all_goals
    first
      | obtain rfl : (0 : ℕ) = k := hz
      | obtain rfl : (1 : ℕ) = k := hz
      | obtain rfl : (2 : ℕ) = k := hz
      | obtain rfl : (3 : ℕ) = k := hz
  all_goals refine ⟨?_, ?_, ?_, hC⟩
  all_goals try (intro i j hi hj; interval_cases i <;> interval_cases j)
  all_goals
    simp [reduceM, hz0, deleteIdxs, List.enum, List.enumFrom, getE, skipIdx,
      hL0, hL1, hL2, hL3]

/-- Witness for the C7 theorem at the concrete record w7rec, whose S-phase
row (index 1) is the unique all-zero row. -/
theorem reduction_one_zero_row_witness :
    zeroRows (Zcarson w7rec) = [1] ∧
      ((reduceM (Zcarson w7rec)).length = 3 ∧
        (∀ row ∈ reduceM (Zcarson w7rec), row.length = 3) ∧
        (∀ i j : ℕ, i < 3 → j < 3 →
          getE (reduceM (Zcarson w7rec)) i j =
            getE (Zcarson w7rec) (skipIdx 1 i) (skipIdx 1 j)) ∧
        (reduceM (Cmatrix w7rec)).length + (zeroRows (Cmatrix w7rec)).length = 4) := by
  have h : zeroRows (Zcarson w7rec) = [1] := by decide
  exact ⟨h, reduction_one_zero_row w7rec 1 h⟩

/-- C2: one collision step of add_vertex follows the precedence policy.  For
a candidate v whose first within-tolerance incumbent is vold: a strictly
higher-ranked candidate (Transformer > Load > Bus > Vertex > Node) replaces
the incumbent occurrence and is retained; a Transformer always displaces a
Load incumbent; a Load candidate never displaces a heavy (Transformer or
Load) incumbent — the point collection is unchanged and the losing Load is
recorded in the odd bucket under its identifier; a strictly lower-ranked
candidate leaves the point collection unchanged. -/
theorem add_vertex_priority (g : CKTgraph) (v vold : Vertex)
    (h : g.vertices.find? (fun u => vertexEq u v) = some vold) :
    (rank vold.kind < rank v.kind →
      (add_vertex g v).vertices = eraseFirst vold g.vertices ++ [v]) ∧
      (v.kind = VKind.transformer ∧ vold.kind = VKind.load →
        (add_vertex g v).vertices = eraseFirst vold g.vertices ++ [v]) ∧
      (v.kind = VKind.load ∧
          (vold.kind = VKind.load ∨ vold.kind = VKind.transformer) →
        (add_vertex g v).vertices = g.vertices ∧
          (add_vertex g v).oddBucket = dset g.oddBucket v.ICEobjID v) ∧
      (rank v.kind < rank vold.kind →
        (add_vertex g v).vertices = g.vertices) := by
  cases hv : v.kind <;> cases hw : vold.kind <;>
    simp [add_vertex, h, rank, hv, hw]

/-- A stored Load at the origin. -/
def ldV : Vertex := ⟨VKind.load, 0, 0, some "ld"⟩

/-- A Transformer candidate at the origin. -/
def txV : Vertex := ⟨VKind.transformer, 0, 0, some "tx"⟩

/-- A graph holding only the Load ldV. -/
def gld : CKTgraph := ⟨[ldV], [], []⟩

/-- Witness for the C2 theorem: a Transformer candidate colliding with a
Load incumbent. -/
theorem add_vertex_priority_witness :
    gld.vertices.find? (fun u => vertexEq u txV) = some ldV ∧
      ((rank ldV.kind < rank txV.kind →
        (add_vertex gld txV).vertices = eraseFirst ldV gld.vertices ++ [txV]) ∧
        (txV.kind = VKind.transformer ∧ ldV.kind = VKind.load →
          (add_vertex gld txV).vertices = eraseFirst ldV gld.vertices ++ [txV]) ∧
        (txV.kind = VKind.load ∧
            (ldV.kind = VKind.load ∨ ldV.kind = VKind.transformer) →
          (add_vertex gld txV).vertices = gld.vertices ∧
            (add_vertex gld txV).oddBucket = dset gld.oddBucket txV.ICEobjID txV) ∧
        (rank txV.kind < rank ldV.kind →
          (add_vertex gld txV).vertices = gld.vertices)) := by
  have h1 : vertexEq ldV txV = true := by
    simp [vertexEq, tol, ldV, txV]
  have hfind : gld.vertices.find? (fun u => vertexEq u txV) = some ldV := by
    simp [gld, List.find?, h1]
  exact ⟨hfind, add_vertex_priority gld txV ldV hfind⟩

/-- One pass of the edge loop adds one contribution to each entry. -/
lemma adjStep_apply (vs : List Vertex) (M : ℕ → ℕ → ℕ) (e : EdgeObj)
    (a b : ℕ) :
    adjStep vs M e a b = M a b + contrib vs e a b := by
  unfold adjStep bump contrib
  split_ifs <;> omega

/-- The folded edge loop computes the sum of the per-edge contributions. -/
lemma foldl_adjStep_apply (vs : List Vertex) (es : List EdgeObj)
    (M : ℕ → ℕ → ℕ) (a b : ℕ) :
    (es.foldl (adjStep vs) M) a b
      = M a b + (es.map (fun e => contrib vs e a b)).sum := by
  induction es generalizing M with
  | nil => simp
  | cons e t ih =>
    simp only [List.foldl_cons, List.map_cons, List.sum_cons]
    rw [ih, adjStep_apply]
    omega

/-- Closed form of an adjacency-matrix entry. -/
lemma adjEntry_eq (g : CKTgraph) (a b : ℕ) :
    adjEntry g a b = (g.edges.map (fun e => contrib g.vertices e a b)).sum := by
  unfold adjEntry
  rw [foldl_adjStep_apply]
  omega

/-- Per-edge contributions are symmetric in the two indices. -/
lemma contrib_symm (vs : List Vertex) (e : EdgeObj) (a b : ℕ) :
    contrib vs e a b = contrib vs e b a := by
  unfold contrib
  split_ifs <;> omega

/-- A sum of a function over List.range equals the Finset.range sum. -/
lemma range_map_sum (n : ℕ) (f : ℕ → ℕ) :
    ((List.range n).map f).sum = ∑ j ∈ Finset.range n, f j := by
  induction n with
  | zero => simp
  | succ m ih =>
    rw [List.range_succ, Finset.sum_range_succ, List.map_append,
      List.sum_append]
    simp [ih]

/-- A list-indexed sum of Finset sums commutes. -/
lemma sum_swap_list {α : Type} (es : List α) (s : Finset ℕ) (f : α → ℕ → ℕ) :
    ∑ j ∈ s, (es.map (fun e => f e j)).sum
      = (es.map (fun e => ∑ j ∈ s, f e j)).sum := by
  induction es with
  | nil => simp
  | cons e t ih =>
    simp [Finset.sum_add_distrib, ih]

/-- Summing the contributions of one edge over a full row counts its
endpoints at that row index. -/
lemma contrib_row_sum (vs : List Vertex) (e : EdgeObj) (i n : ℕ)
    (hf : vindex vs e.fromV < n) (ht : vindex vs e.toV < n) :
    (∑ j ∈ Finset.range n, contrib vs e i j)
      = (if vindex vs e.fromV = i then 1 else 0) +
        (if vindex vs e.toV = i then 1 else 0) := by
  unfold contrib
  rw [Finset.sum_add_distrib]
  congr 1
  · by_cases hif : vindex vs e.fromV = i
    · simp [hif, Finset.sum_ite_eq' (Finset.range n) (vindex vs e.toV),
        Finset.mem_range.mpr ht]
    · have : ∀ j, ¬ (i = vindex vs e.fromV ∧ j = vindex vs e.toV) := by
        intro j hc
        exact hif hc.1.symm
      simp [hif, this]
  · by_cases hit : vindex vs e.toV = i
    · simp [hit, Finset.sum_ite_eq' (Finset.range n) (vindex vs e.fromV),
        Finset.mem_range.mpr hf]
    · have : ∀ j, ¬ (i = vindex vs e.toV ∧ j = vindex vs e.fromV) := by
        intro j hc
        exact hit hc.1.symm
      simp [hit, this]

/-- Row i of the materialized adjacency matrix. -/
lemma adjacency_matrix_row (g : CKTgraph) (i : ℕ) (hi : i < g.vertices.length) :
    (adjacency_matrix g).getD i []
      = (List.range g.vertices.length).map (fun j => adjEntry g i j) := by
  unfold adjacency_matrix
  rw [List.getD_eq_getElem?_getD, List.getElem?_map, List.getElem?_range hi]
  rfl

/-- C4: every matrix returned by the adjacency computation is square with
side the point count, symmetric across the diagonal, and each row sums to
the number of connector endpoints incident (with multiplicity) to the point
entity of that index.  The hypothesis states that every stored connector's
endpoints resolve to an in-range index (otherwise the Python code raises
and returns nothing). -/
theorem adjacency_matrix_spec (g : CKTgraph)
    (hend : ∀ e ∈ g.edges,
      vindex g.vertices e.fromV < g.vertices.length ∧
        vindex g.vertices e.toV < g.vertices.length) :
    (adjacency_matrix g).length = g.vertices.length ∧
      (∀ row ∈ adjacency_matrix g, row.length = g.vertices.length) ∧
      (∀ i j : ℕ, i < g.vertices.length → j < g.vertices.length →
        ((adjacency_matrix g).getD i []).getD j 0
          = ((adjacency_matrix g).getD j []).getD i 0) ∧
      (∀ i : ℕ, i < g.vertices.length →
        ((adjacency_matrix g).getD i []).sum = incidentEndpoints g i) := by
  refine ⟨?_, ?_, ?_, ?_⟩
  · simp [adjacency_matrix]
  · intro row hrow
    unfold adjacency_matrix at hrow
    obtain ⟨i, hi, rfl⟩ := List.mem_map.mp hrow
    simp
  · intro i j hi hj
    rw [adjacency_matrix_row g i hi, adjacency_matrix_row g j hj]
    have hji : ((List.range g.vertices.length).map
        (fun b => adjEntry g i b)).getD j 0 = adjEntry g i j := by
      rw [List.getD_eq_getElem?_getD, List.getElem?_map, List.getElem?_range hj]
      rfl
    have hij : ((List.range g.vertices.length).map
        (fun b => adjEntry g j b)).getD i 0 = adjEntry g j i := by
      rw [List.getD_eq_getElem?_getD, List.getElem?_map, List.getElem?_range hi]
      rfl
    rw [hji, hij, adjEntry_eq, adjEntry_eq]
    congr 1
    exact List.map_congr_left (fun e _ => contrib_symm g.vertices e i j)
  · intro i hi
    rw [adjacency_matrix_row g i hi, range_map_sum]
    calc ∑ j ∈ Finset.range g.vertices.length, adjEntry g i j
        = ∑ j ∈ Finset.range g.vertices.length,
            (g.edges.map (fun e => contrib g.vertices e i j)).sum := by
          refine Finset.sum_congr rfl (fun j _ => ?_)
          rw [adjEntry_eq]
      _ = (g.edges.map (fun e =>
            ∑ j ∈ Finset.range g.vertices.length,
              contrib g.vertices e i j)).sum := by
          rw [sum_swap_list]
      _ = incidentEndpoints g i := by
          unfold incidentEndpoints
          congr 1
          refine List.map_congr_left (fun e he => ?_)
          exact contrib_row_sum g.vertices e i g.vertices.length
            (hend e he).1 (hend e he).2

/-- A generic vertex at the origin. -/
def vA : Vertex := ⟨VKind.vertex, 0, 0, some "v1"⟩

/-- A generic vertex two units away from vA. -/
def vB : Vertex := ⟨VKind.vertex, 2, 0, some "v2"⟩

/-- A graph with the two vertices vA and vB joined by two parallel
connectors. -/
def gAB : CKTgraph :=
  ⟨[vA, vB], [⟨vA, vB, some "e1"⟩, ⟨vA, vB, some "e2"⟩], []⟩

/-- Witness for the C4 theorem on the two-vertex graph with parallel
connectors. -/
theorem adjacency_matrix_spec_witness :
    (∀ e ∈ gAB.edges,
      vindex gAB.vertices e.fromV < gAB.vertices.length ∧
        vindex gAB.vertices e.toV < gAB.vertices.length) ∧
      ((adjacency_matrix gAB).length = gAB.vertices.length ∧
        (∀ row ∈ adjacency_matrix gAB, row.length = gAB.vertices.length) ∧
        (∀ i j : ℕ, i < gAB.vertices.length → j < gAB.vertices.length →
          ((adjacency_matrix gAB).getD i []).getD j 0
            = ((adjacency_matrix gAB).getD j []).getD i 0) ∧
        (∀ i : ℕ, i < gAB.vertices.length →
          ((adjacency_matrix gAB).getD i []).sum = incidentEndpoints gAB i)) := by
  have hAA : vertexEq vA vA = true := by
    simp [vertexEq, tol, vA]
  have hAB : vertexEq vA vB = false := by
    simp only [vertexEq, vA, vB, tol, decide_eq_false_iff_not]
    norm_num
  have hBB : vertexEq vB vB = true := by
    simp [vertexEq, tol, vB]
  have hiA : vindex [vA, vB] vA = 0 := by
    simp [vindex, List.findIdx_cons, hAA]
  have hiB : vindex [vA, vB] vB = 1 := by
    simp [vindex, List.findIdx_cons, hAB, hBB]
  have hend : ∀ e ∈ gAB.edges,
      vindex gAB.vertices e.fromV < gAB.vertices.length ∧
        vindex gAB.vertices e.toV < gAB.vertices.length := by
    intro e he
    have he2 : e = (⟨vA, vB, some "e1"⟩ : EdgeObj) ∨
        e = (⟨vA, vB, some "e2"⟩ : EdgeObj) := by
      simpa [gAB] using he
    rcases he2 with rfl | rfl <;> simp [hiA, hiB, gAB]
  exact ⟨hend, adjacency_matrix_spec gAB hend⟩

/-- C5 amended: immediately after an insert-connector operation returns,
both resolved endpoint references of the just-inserted connector are
elements of the graph's point collection (an existing vertex within
tolerance is attached, a fresh Node is appended otherwise), and the
connector itself is stored.  (Later insert-point-entity operations may
remove a referenced vertex, so this is not an invariant of all reachable
states — see the counterexample.) -/
theorem add_edge_endpoints_present (g : CKTgraph) (c : EdgeIn) :
    (add_edge g c).2.fromV ∈ (add_edge g c).1.vertices ∧
      (add_edge g c).2.toV ∈ (add_edge g c).1.vertices ∧
      (add_edge g c).2 ∈ (add_edge g c).1.edges := by
  unfold add_edge
  cases h1 : g.vertices.find?
      (fun u => vertexEq u ⟨VKind.node, c.X1, c.Y1, none⟩) with
  | some u =>
    have hu : u ∈ g.vertices := List.mem_of_find?_eq_some h1
    cases h2 : g.vertices.find?
        (fun u => vertexEq u ⟨VKind.node, c.X2, c.Y2, none⟩) with
    | some w =>
      have hw : w ∈ g.vertices := List.mem_of_find?_eq_some h2
      simp [h1, h2, hu, hw]
    | none => simp [h1, h2, List.mem_append, hu]
  | none =>
    cases h2 : (g.vertices ++ [(⟨VKind.node, c.X1, c.Y1, none⟩ : Vertex)]).find?
        (fun u => vertexEq u ⟨VKind.node, c.X2, c.Y2, none⟩) with
    | some w =>
      have hw : w ∈ g.vertices ++ [(⟨VKind.node, c.X1, c.Y1, none⟩ : Vertex)] :=
        List.mem_of_find?_eq_some h2
      simp [h1, h2, List.mem_append, hw]
    | none => simp [h1, h2, List.mem_append]

/-- The empty graph. -/
def g0 : CKTgraph := ⟨[], [], []⟩

/-- A connector candidate from (0, 0) to (1, 1). -/
def lineIn : EdgeIn := ⟨0, 0, 1, 1, some "ln"⟩

/-- A Bus candidate 0.9 mm from the origin (within the 1 mm tolerance). -/
def busC : Vertex := ⟨VKind.bus, 9/10000, 0, some "b"⟩

/-- A Load candidate 1.8 mm from the origin (within tolerance of busC but
not of the origin). -/
def loadC : Vertex := ⟨VKind.load, 18/10000, 0, some "d"⟩

/-- C5 counterexample: after inserting the connector from (0,0) to (1,1),
then the Bus at 0.9 mm (which replaces the origin Node endpoint), then the
Load at 1.8 mm (which replaces the Bus), the reachable state holds a stored
connector whose from-endpoint (the origin Node) is within tolerance of no
element of the point collection — in particular it is not present in it —
refuting the claimed invariant for arbitrary insertion sequences. -/
theorem edge_endpoint_lost :
    ∃ e ∈ (add_vertex (add_vertex (add_edge g0 lineIn).1 busC) loadC).edges,
      ∀ u ∈ (add_vertex (add_vertex (add_edge g0 lineIn).1 busC) loadC).vertices,
        vertexEq u e.fromV = false := by
  have e0011 : vertexEq ⟨VKind.node, 0, 0, none⟩ ⟨VKind.node, 1, 1, none⟩
      = false := by
    simp only [vertexEq, tol, decide_eq_false_iff_not]
    norm_num
  have e00b : vertexEq ⟨VKind.node, 0, 0, none⟩ ⟨VKind.bus, 9/10000, 0, some "b"⟩
      = true := by
    simp only [vertexEq, tol, decide_eq_true_eq]
    norm_num
  have en00 : vertexEq ⟨VKind.node, 0, 0, none⟩ ⟨VKind.node, 0, 0, none⟩
      = true := by
    simp [vertexEq, tol]
  have e11b : vertexEq ⟨VKind.node, 1, 1, none⟩ ⟨VKind.bus, 9/10000, 0, some "b"⟩
      = false := by
    simp only [vertexEq, tol, decide_eq_false_iff_not]
    norm_num
  have e11d : vertexEq ⟨VKind.node, 1, 1, none⟩ ⟨VKind.load, 18/10000, 0, some "d"⟩
      = false := by
    simp only [vertexEq, tol, decide_eq_false_iff_not]
    norm_num
  have ebd : vertexEq ⟨VKind.bus, 9/10000, 0, some "b"⟩
      ⟨VKind.load, 18/10000, 0, some "d"⟩ = true := by
    simp only [vertexEq, tol, decide_eq_true_eq]
    norm_num
  have ebb : vertexEq ⟨VKind.bus, 9/10000, 0, some "b"⟩
      ⟨VKind.bus, 9/10000, 0, some "b"⟩ = true := by
    simp [vertexEq, tol]
  have e1100 : vertexEq ⟨VKind.node, 1, 1, none⟩ ⟨VKind.node, 0, 0, none⟩
      = false := by
    simp only [vertexEq, tol, decide_eq_false_iff_not]
    norm_num
  have ed00 : vertexEq ⟨VKind.load, 18/10000, 0, some "d"⟩
      ⟨VKind.node, 0, 0, none⟩ = false := by
    simp only [vertexEq, tol, decide_eq_false_iff_not]
    norm_num
  have h1 : add_edge g0 lineIn =
      (⟨[⟨VKind.node, 0, 0, none⟩, ⟨VKind.node, 1, 1, none⟩],
        [⟨⟨VKind.node, 0, 0, none⟩, ⟨VKind.node, 1, 1, none⟩, some "ln"⟩], []⟩,
        ⟨⟨VKind.node, 0, 0, none⟩, ⟨VKind.node, 1, 1, none⟩, some "ln"⟩) := by
    unfold add_edge g0 lineIn
    simp [List.find?, e0011]
  have h2 : add_vertex
      (⟨[⟨VKind.node, 0, 0, none⟩, ⟨VKind.node, 1, 1, none⟩],
        [⟨⟨VKind.node, 0, 0, none⟩, ⟨VKind.node, 1, 1, none⟩, some "ln"⟩], []⟩ :
          CKTgraph) busC =
      ⟨[⟨VKind.node, 1, 1, none⟩, ⟨VKind.bus, 9/10000, 0, some "b"⟩],
        [⟨⟨VKind.node, 0, 0, none⟩, ⟨VKind.node, 1, 1, none⟩, some "ln"⟩], []⟩ := by
    unfold add_vertex busC
    simp [List.find?, e00b, eraseFirst, en00]
  have h3 : add_vertex
      (⟨[⟨VKind.node, 1, 1, none⟩, ⟨VKind.bus, 9/10000, 0, some "b"⟩],
        [⟨⟨VKind.node, 0, 0, none⟩, ⟨VKind.node, 1, 1, none⟩, some "ln"⟩], []⟩ :
          CKTgraph) loadC =
      ⟨[⟨VKind.node, 1, 1, none⟩, ⟨VKind.load, 18/10000, 0, some "d"⟩],
        [⟨⟨VKind.node, 0, 0, none⟩, ⟨VKind.node, 1, 1, none⟩, some "ln"⟩], []⟩ := by
    unfold add_vertex loadC
    simp [List.find?, e11d, ebd, eraseFirst, e11b, ebb]
  rw [h1]
  dsimp only
  rw [h2, h3]
  refine ⟨⟨⟨VKind.node, 0, 0, none⟩, ⟨VKind.node, 1, 1, none⟩, some "ln"⟩,
    by simp, ?_⟩
  intro u hu
  simp only [List.mem_cons, List.not_mem_nil, or_false] at hu
  rcases hu with rfl | rfl
  · exact e1100
  · exact ed00

/-- Vertex spatial equality is reflexive: a vertex is within tolerance of
itself. -/
lemma vertexEq_refl (v : Vertex) : vertexEq v v = true := by
  simp only [vertexEq, decide_eq_true_eq, sub_self]
  norm_num [tol]

/-- eraseFirst passes over a prefix with no match. -/
lemma eraseFirst_append_no_match (w : Vertex) (l1 l2 : List Vertex)
    (h : ∀ u ∈ l1, vertexEq u w = false) :
    eraseFirst w (l1 ++ l2) = l1 ++ eraseFirst w l2 := by
  induction l1 with
  | nil => simp
  | cons a t ih =>
    have ha := h a (List.mem_cons_self a t)
    simp [eraseFirst, ha, ih (fun u hu => h u (List.mem_cons_of_mem a hu))]

/-- When the first within-tolerance incumbent w of v is also the only vertex
within tolerance of itself and the only match of v, the list splits around
w, list.remove(w) removes exactly that occurrence, and the remainder holds
no match of v. -/
lemma find_vertex_decomp (l : List Vertex) (v w : Vertex)
    (hfind : l.find? (fun u => vertexEq u v) = some w)
    (hw : ∀ u ∈ l, vertexEq u w = true → u = w)
    (hcount : l.countP (fun u => vertexEq u v) ≤ 1) :
    ∃ l1 l2, l = l1 ++ w :: l2 ∧
      eraseFirst w l = l1 ++ l2 ∧
      (∀ u, u ∈ l1 ∨ u ∈ l2 → vertexEq u v = false) := by
  induction l with
  | nil => simp at hfind
  | cons a t ih =>
    cases ha : vertexEq a v with
    | true =>
      have hwa : w = a := by
        simp only [List.find?, ha] at hfind
        exact (Option.some_inj.mp hfind).symm
      subst hwa
      refine ⟨[], t, by simp, by simp [eraseFirst, vertexEq_refl], ?_⟩
      intro u hu
      rcases hu with hu | hu
      · simp at hu
      · have hz : t.countP (fun u => vertexEq u v) = 0 := by
          simp only [List.countP_cons, ha, if_true] at hcount
          omega
        have := List.countP_eq_zero.mp hz u hu
        simpa using this
    | false =>
      have hfind2 : t.find? (fun u => vertexEq u v) = some w := by
        simpa only [List.find?, ha] using hfind
      have hw2 : ∀ u ∈ t, vertexEq u w = true → u = w :=
        fun u hu => hw u (List.mem_cons_of_mem a hu)
      have hcount2 : t.countP (fun u => vertexEq u v) ≤ 1 := by
        simp only [List.countP_cons, ha] at hcount
        omega
      obtain ⟨l1, l2, hsplit, herase, hfalse⟩ := ih hfind2 hw2 hcount2
      have hwv : vertexEq w v = true := by
        have := List.find?_some hfind2
        simpa using this
      have haw : vertexEq a w = false := by
        cases hcase : vertexEq a w with
        | false => rfl
        | true =>
          have : a = w := hw a (List.mem_cons_self a t) hcase
          rw [this, hwv] at ha
          exact absurd ha (by simp)
      refine ⟨a :: l1, l2, by simp [hsplit], ?_, ?_⟩
      · simp [eraseFirst, haw, herase]
      · intro u hu
        rcases hu with hu | hu
        · rcases List.mem_cons.mp hu with rfl | hu1
          · exact ha
          · exact hfalse u (Or.inl hu1)
        · exact hfalse u (Or.inr hu)

/-- Inserting v again into a collection of the shape vs1 ++ [v], where vs1
holds no match of v, leaves the collection unchanged for every vertex
kind. -/
lemma second_insert_noop (vs1 : List Vertex) (v : Vertex)
    (hnone : ∀ u ∈ vs1, vertexEq u v = false) (g1 : CKTgraph)
    (hg : g1.vertices = vs1 ++ [v]) :
    (add_vertex g1 v).vertices = g1.vertices := by
  have hfnil : vs1.find? (fun u => vertexEq u v) = none :=
    List.find?_eq_none.mpr (fun u hu => by simp [hnone u hu])
  have hfind : g1.vertices.find? (fun u => vertexEq u v) = some v := by
    rw [hg, List.find?_append, hfnil]
    simp [List.find?, vertexEq_refl]
  have herase : eraseFirst v (vs1 ++ [v]) = vs1 := by
    rw [eraseFirst_append_no_match v vs1 [v] (fun u hu => hnone u hu)]
    simp [eraseFirst, vertexEq_refl]
  unfold add_vertex
  rw [hfind]
  cases hv : v.kind <;> simp [hv, hg, herase]

/-- The point collection after add_vertex depends only on the point
collection before it. -/
lemma add_vertex_vertices_congr (g g2 : CKTgraph) (v : Vertex)
    (h : g.vertices = g2.vertices) :
    (add_vertex g v).vertices = (add_vertex g2 v).vertices := by
  unfold add_vertex
  rw [h]
  cases hf : g2.vertices.find? (fun u => vertexEq u v) <;>
    simp only [hf] <;> split_ifs <;> simp [h]

/-- C9 amended: inserting the same point entity twice, into a graph where at
most one stored entity lies within tolerance of the candidate and no other
stored entity lies within tolerance of that incumbent, leaves the point
collection of the second insertion identical to that of the first, and the
collection after the first insertion holds exactly one entity within
tolerance of the candidate's location.  (Without the side conditions the
claim fails — see the counterexample.) -/
theorem double_insert_dedup (g : CKTgraph) (v : Vertex)
    (hcount : g.vertices.countP (fun u => vertexEq u v) ≤ 1)
    (huniq : ∀ w ∈ g.vertices, vertexEq w v = true →
      ∀ u ∈ g.vertices, vertexEq u w = true → u = w) :
    (add_vertex (add_vertex g v) v).vertices = (add_vertex g v).vertices ∧
      (add_vertex g v).vertices.countP (fun u => vertexEq u v) = 1 := by
  cases hfind : g.vertices.find? (fun u => vertexEq u v) with
  | none =>
    have hnone : ∀ u ∈ g.vertices, vertexEq u v = false := by
      intro u hu
      have := List.find?_eq_none.mp hfind u hu
      simpa using this
    have h1 : (add_vertex g v).vertices = g.vertices ++ [v] := by
      cases hv : v.kind <;> simp [add_vertex, hfind, hv]
    refine ⟨second_insert_noop g.vertices v hnone (add_vertex g v) h1, ?_⟩
    rw [h1, List.countP_append]
    have hz : g.vertices.countP (fun u => vertexEq u v) = 0 :=
      List.countP_eq_zero.mpr (fun u hu => by simp [hnone u hu])
    simp [hz, List.countP_cons, vertexEq_refl]
  | some w =>
    have hwv : vertexEq w v = true := by
      have := List.find?_some hfind
      simpa using this
    have hwmem : w ∈ g.vertices := List.mem_of_find?_eq_some hfind
    obtain ⟨l1, l2, hsplit, herase, hfalse⟩ :=
      find_vertex_decomp g.vertices v w hfind
        (fun u hu => huniq w hwmem hwv u hu) hcount
    have hz1 : l1.countP (fun u => vertexEq u v) = 0 :=
      List.countP_eq_zero.mpr (fun u hu => by simp [hfalse u (Or.inl hu)])
    have hz2 : l2.countP (fun u => vertexEq u v) = 0 :=
      List.countP_eq_zero.mpr (fun u hu => by simp [hfalse u (Or.inr hu)])
    have hc1 : g.vertices.countP (fun u => vertexEq u v) = 1 := by
      rw [hsplit, List.countP_append, List.countP_cons]
      simp [hz1, hz2, hwv]
    have houtcome : (add_vertex g v).vertices = g.vertices ∨
        (add_vertex g v).vertices = eraseFirst w g.vertices ++ [v] := by
      cases hv : v.kind <;> cases hw : w.kind <;>
        simp [add_vertex, hfind, hv, hw]
    rcases houtcome with hkeep | hrepl
    · exact ⟨add_vertex_vertices_congr (add_vertex g v) g v hkeep,
        by rw [hkeep]; exact hc1⟩
    · have hrepl2 : (add_vertex g v).vertices = (l1 ++ l2) ++ [v] := by
        rw [hrepl, herase]
      have hnone2 : ∀ u ∈ l1 ++ l2, vertexEq u v = false := by
        intro u hu
        rcases List.mem_append.mp hu with hu | hu
        · exact hfalse u (Or.inl hu)
        · exact hfalse u (Or.inr hu)
      refine ⟨second_insert_noop (l1 ++ l2) v hnone2 (add_vertex g v) hrepl2, ?_⟩
      have hz12 : (l1 ++ l2).countP (fun u => vertexEq u v) = 0 :=
        List.countP_eq_zero.mpr (fun u hu => by simp [hnone2 u hu])
      rw [hrepl2, List.countP_append, hz12]
      simp [List.countP_cons, vertexEq_refl]

/-- A Node at the origin. -/
def nA : Vertex := ⟨VKind.node, 0, 0, some "n1"⟩

/-- A Node 1.5 mm from the origin (outside tolerance of nA). -/
def nB : Vertex := ⟨VKind.node, 15/10000, 0, some "n2"⟩

/-- A Load 0.8 mm from the origin, within tolerance of both nA and nB. -/
def dupLoad : Vertex := ⟨VKind.load, 8/10000, 0, some "L"⟩

/-- C9 counterexample: in the reachable graph holding Nodes at 0 mm and
1.5 mm, inserting the same Load (at 0.8 mm) twice replaces each Node in
turn and leaves TWO stored copies of the Load within tolerance of its
location, refuting dedup idempotence over arbitrary graph states. -/
theorem double_insert_two_copies :
    ((add_vertex (add_vertex (add_vertex (add_vertex g0 nA) nB) dupLoad)
        dupLoad).vertices.countP (fun u => vertexEq u dupLoad)) = 2 := by
  have eAB : vertexEq nA nB = false := by
    simp only [vertexEq, nA, nB, tol, decide_eq_false_iff_not]
    norm_num
  have eAd : vertexEq nA dupLoad = true := by
    simp only [vertexEq, nA, dupLoad, tol, decide_eq_true_eq]
    norm_num
  have eAA : vertexEq nA nA = true := vertexEq_refl nA
  have eBd : vertexEq nB dupLoad = true := by
    simp only [vertexEq, nB, dupLoad, tol, decide_eq_true_eq]
    norm_num
  have eBB : vertexEq nB nB = true := vertexEq_refl nB
  have edd : vertexEq dupLoad dupLoad = true := vertexEq_refl dupLoad
  have hknA : nA.kind = VKind.node := rfl
  have hknB : nB.kind = VKind.node := rfl
  have hkd : dupLoad.kind = VKind.load := rfl
  have h1 : add_vertex g0 nA = ⟨[nA], [], []⟩ := by
    unfold add_vertex g0
    simp [List.find?, hknA]
  have h2 : add_vertex (⟨[nA], [], []⟩ : CKTgraph) nB = ⟨[nA, nB], [], []⟩ := by
    unfold add_vertex
    simp [List.find?, eAB, hknB]
  have h3 : add_vertex (⟨[nA, nB], [], []⟩ : CKTgraph) dupLoad
      = ⟨[nB, dupLoad], [], []⟩ := by
    unfold add_vertex
    simp [List.find?, eAd, hkd, hknA, eraseFirst, eAA]
  have h4 : add_vertex (⟨[nB, dupLoad], [], []⟩ : CKTgraph) dupLoad
      = ⟨[dupLoad, dupLoad], [], []⟩ := by
    unfold add_vertex
    simp [List.find?, eBd, hkd, hknB, eraseFirst, eBB]
  rw [h1, h2, h3, h4]
  simp [List.countP_cons, edd]

/-- Witness for the C9 amended theorem: double insertion of the Load ldV
into the empty graph. -/
theorem double_insert_dedup_witness :
    (g0.vertices.countP (fun u => vertexEq u ldV) ≤ 1) ∧
      (∀ w ∈ g0.vertices, vertexEq w ldV = true →
        ∀ u ∈ g0.vertices, vertexEq u w = true → u = w) ∧
      ((add_vertex (add_vertex g0 ldV) ldV).vertices
          = (add_vertex g0 ldV).vertices ∧
        (add_vertex g0 ldV).vertices.countP (fun u => vertexEq u ldV) = 1) := by
  have hcount : g0.vertices.countP (fun u => vertexEq u ldV) ≤ 1 := by
    simp [g0]
  have huniq : ∀ w ∈ g0.vertices, vertexEq w ldV = true →
      ∀ u ∈ g0.vertices, vertexEq u w = true → u = w := by
    simp [g0]
  exact ⟨hcount, huniq, double_insert_dedup g0 ldV hcount huniq⟩
